import Mathlib

/-!
Verification of the schema-driven preprocessing pipeline and model server of
the `rt-tutorials-serving-with-fastapi` repository.

The Python source (app/data_management/preprocessors.py, pipeline.py,
app/model_server.py) is shallowly embedded: a pandas DataFrame becomes an
ordered list of named columns over a `Value` cell type, each scikit-learn
style transformer becomes an explicit Lean function on that representation,
and Python exceptions become `Except String` results.
-/

set_option autoImplicit false

namespace RTServe

/-- A cell of a pandas DataFrame: a string, an integer, a rational number
(standing for a Python float), or a null (NaN / None). -/
inductive Value where
  | str (s : String)
  | int (n : Int)
  | rat (q : ℚ)
  | null
deriving DecidableEq

/-- A DataFrame: an ordered list of named columns; rows are aligned by
position inside the column lists. -/
abbrev DataFrame := List (String × List Value)

/-- `df.columns` of pandas: the ordered list of column names. -/
def columnsOf (df : DataFrame) : List String := df.map Prod.fst

/-- Column access `df[c]`: the first column named `c`, if any. -/
def dfGet (df : DataFrame) (c : String) : Option (List Value) :=
  (df.find? (fun p => p.1 == c)).map Prod.snd

/-- Column assignment `df[c] = vals` for a column `c` already present:
replaces the values of every column labelled `c`, in place. -/
def dfSet (df : DataFrame) (c : String) (vals : List Value) : DataFrame :=
  df.map (fun p => if p.1 = c then (c, vals) else p)

/-- The `selector_type` argument of `ColumnSelector` (`'keep'` / `'drop'`). -/
inductive SelectorType where
  | keep
  | drop
deriving DecidableEq

/-- `ColumnSelector` from preprocessors.py: selects or drops the named
columns. -/
structure ColumnSelector where
  columns : List String
  selector_type : SelectorType

/-- `ColumnSelector.transform`: keep mode retains `[col for col in X.columns
if col in self.columns]` (the input's column order); drop mode drops those
columns. -/
def ColumnSelector.transform (s : ColumnSelector) (df : DataFrame) : DataFrame :=
  match s.selector_type with
  | .keep => df.filter (fun p => decide (p.1 ∈ s.columns))
  | .drop => df.filter (fun p => decide (p.1 ∉ s.columns))

/-- `Series.clip(lower, upper)` on one rational cell: lower bound applied
first, then the upper bound, as in `ValueClipper.transform`. -/
def clipQ (minv maxv : Option ℚ) (q : ℚ) : ℚ :=
  let q1 := match minv with
    | some m => max q m
    | none => q
  match maxv with
  | some m => min q1 m
  | none => q1

/-- Cell-level clipping: numeric (rational) cells are clipped; any other
cell (NaN, strings) passes through unchanged, as pandas `clip` does. -/
def clipValue (minv maxv : Option ℚ) : Value → Value
  | .rat q => .rat (clipQ minv maxv q)
  | v => v

/-- `ValueClipper` from preprocessors.py. -/
structure ValueClipper where
  fields_to_clip : List String
  min_val : Option ℚ
  max_val : Option ℚ

/-- The loop of `ValueClipper.transform`: `data[field] = data[field].clip(...)`
for each field, in order; reading a missing field raises a `KeyError`. -/
def clipFieldsGo (minv maxv : Option ℚ) : List String → DataFrame → Except String DataFrame
  | [], df => .ok df
  | f :: rest, df =>
    match dfGet df f with
    | none => .error ("KeyError: " ++ f)
    | some vals => clipFieldsGo minv maxv rest (dfSet df f (vals.map (clipValue minv maxv)))

/-- `ValueClipper.transform` from preprocessors.py. -/
def ValueClipper.transform (v : ValueClipper) (df : DataFrame) : Except String DataFrame :=
  clipFieldsGo v.min_val v.max_val v.fields_to_clip df

/-- Arithmetic mean of a column, as `StandardScaler.fit` computes it. -/
def listMean (xs : List ℚ) : ℚ := xs.sum / (xs.length : ℚ)

/-- Population variance (`ddof = 0`), as `StandardScaler.fit` computes it. -/
def populationVar (xs : List ℚ) : ℚ :=
  ((xs.map (fun x => (x - listMean xs) ^ 2)).sum) / (xs.length : ℚ)

/-- scikit-learn `_handle_zeros_in_scale`, expressed at the squared-scale
level: the scaler's scale is `sqrt (populationVar xs)`, and a zero scale is
replaced by `1`. Since `sqrt v = 0` iff `v = 0` and `1 ^ 2 = 1`, replacing a
zero variance by `1` is exactly the square of that computation, which keeps
the embedding inside `ℚ`. -/
def handleZerosInVar (v : ℚ) : ℚ := if v = 0 then 1 else v

/-- `StandardScaler.fit` on one numeric column: records the mean and the
(squared, zero-handled) scale. Fitting is total: it never raises on a
zero-variance column. -/
def scalerFit (xs : List ℚ) : ℚ × ℚ := (listMean xs, handleZerosInVar (populationVar xs))

/-- `StandardScaler.transform` on one cell: `(x - mean) / scale`. -/
def scalerTransform (mean scale x : ℚ) : ℚ := (x - mean) / scale

/-- Helper for `dropDuplicates`: keeps the first occurrence of each value,
skipping values already seen. -/
def dropDuplicatesAux : List Value → List Value → List Value
  | [], _ => []
  | v :: vs, seen =>
    if v ∈ seen then dropDuplicatesAux vs seen
    else v :: dropDuplicatesAux vs (v :: seen)

/-- pandas `Series.drop_duplicates()`: the distinct values of a column, in
first-occurrence order. -/
def dropDuplicates (l : List Value) : List Value := dropDuplicatesAux l []

/-- Python's `list.sort(key = lambda k: k == target_class)`: a stable sort
by a boolean key is exactly a stable partition, all `False`-keyed elements
first (in order), then the `True`-keyed ones. -/
def sortPosLast (pos : Value) (l : List Value) : List Value :=
  l.filter (fun k => decide (k ≠ pos)) ++ l.filter (fun k => decide (k = pos))

/-- `CustomLabelBinarizer` from preprocessors.py. `given_classes` is `None`
before fitting, modelled as the empty list. -/
structure CustomLabelBinarizer where
  target_field : String
  target_class : Value
  given_classes : List Value

/-- `CustomLabelBinarizer.fit`: records the distinct values of the target
column, sorted so the configured target class is last. Reading a missing
target column raises a `KeyError`; no other failure path exists. -/
def CustomLabelBinarizer.fit (m : CustomLabelBinarizer) (df : DataFrame) :
    Except String CustomLabelBinarizer :=
  match dfGet df m.target_field with
  | none => .error ("KeyError: " ++ m.target_field)
  | some col =>
    .ok { m with given_classes := sortPosLast m.target_class (dropDuplicates col) }

/-- `sklearn.preprocessing.label_binarize(y, classes).flatten()` on one cell
in the two-class case: `1` for the last listed class, `0` for anything else
(theorems about this embedding are only stated with two classes). -/
def lbTransformValue (classes : List Value) (v : Value) : Value :=
  if classes.getLast? = some v then .int 1 else .int 0

/-- `CustomLabelBinarizer.transform`: binarizes the target column if present,
leaving every other column (and a target-less frame) unchanged. -/
def CustomLabelBinarizer.transform (m : CustomLabelBinarizer) (df : DataFrame) : DataFrame :=
  df.map (fun p =>
    if p.1 = m.target_field then (p.1, p.2.map (lbTransformValue m.given_classes)) else p)

/-- `OneHotEncoderMultipleCols` from preprocessors.py. The fitted state
`top_cat_by_ohe_col` is a Python dict, modelled as an association list; its
categories are strings by the time the encoder runs in the pipeline (the
column name concatenation `col + '_' + cat` requires this). -/
structure OneHotEncoderMultipleCols where
  ohe_columns : List String
  top_cat_by_ohe_col : List (String × List String)

/-- Dict lookup `self.top_cat_by_ohe_col[col]` (first binding wins; a
missing key raises `KeyError`, surfaced where the lookup happens). -/
def lookupTop (s : OneHotEncoderMultipleCols) (c : String) : Option (List String) :=
  (s.top_cat_by_ohe_col.find? (fun p => p.1 == c)).map Prod.snd

/-- `np.where(data[col] == cat, 1, 0)` on one cell. -/
def oheIndicator (cat : String) (v : Value) : Value :=
  if v = .str cat then .int 1 else .int 0

/-- The indicator columns emitted for one fitted feature: one column
`<col>_<cat>` per learned category, in learned order. -/
def oheColsFor (f : String) (tops : List String) (vals : List Value) :
    List (String × List Value) :=
  tops.map (fun cat => (f ++ "_" ++ cat, vals.map (oheIndicator cat)))

/-- The column-building loop of `OneHotEncoderMultipleCols.transform`: for
each fitted column with a non-empty learned category list, either emit its
indicator columns or raise if the column is absent from the input. -/
def oheExtra (s : OneHotEncoderMultipleCols) (df : DataFrame) :
    List String → Except String (List (String × List Value))
  | [] => .ok []
  | c :: rest =>
    match lookupTop s c with
    | none => .error ("KeyError: " ++ c)
    | some tops =>
      if 0 < tops.length then
        match dfGet df c with
        | some vals =>
          match oheExtra s df rest with
          | .ok tail => .ok (oheColsFor c tops vals ++ tail)
          | .error e => .error e
        | none =>
          .error ("Error: Fitted one-hot-encoded column " ++ c ++
            " does not exist in dataframe given for transformation.")
      else oheExtra s df rest

/-- `OneHotEncoderMultipleCols.transform`: with no configured columns the
input passes through; otherwise the new indicator columns are concatenated
after all original columns (`pd.concat([data] ++ dfs, axis=1)`). -/
def OneHotEncoderMultipleCols.transform (s : OneHotEncoderMultipleCols)
    (df : DataFrame) : Except String DataFrame :=
  if s.ohe_columns.isEmpty then .ok df
  else
    match oheExtra s df s.ohe_columns with
    | .ok extra => .ok (df ++ extra)
    | .error e => .error e

/-- pandas `isnull` on one cell. -/
def isNull : Value → Bool
  | .null => true
  | _ => false

/-- `X[var].isnull().mean() < threshold`. The mean of an empty column is
NaN in pandas, and `NaN < t` is `False`, so an empty column never passes. -/
def nullFracBelow (vals : List Value) (t : ℚ) : Bool :=
  if vals.length = 0 then false
  else decide ((((vals.filter isNull).length : ℚ) / (vals.length : ℚ)) < t)

/-- The fit-time predicate of `MostFrequentImputer.fit`:
`var in X.columns and X[var].isnull().mean() < self.threshold`. -/
def fittedCatVar (df : DataFrame) (t : ℚ) (v : String) : Bool :=
  match dfGet df v with
  | some vals => nullFracBelow vals t
  | none => false

/-- `X[col].value_counts().index[0]`: a non-null value of maximal occurrence
count. `value_counts` sorts by count descending and its order among equal
counts is implementation-defined, so the fold keeps the first-observed value
among the maxima; theorems rely only on count maximality. Returns `none`
(an `IndexError` in Python) when no non-null value exists. -/
def mostFrequent (vals : List Value) : Option Value :=
  (dropDuplicates (vals.filter (fun v => !(isNull v)))).foldl
    (fun best c =>
      match best with
      | none => some c
      | some b => if vals.count b < vals.count c then some c else best)
    none

/-- `MostFrequentImputer` from preprocessors.py (the pipeline instantiates
it with `threshold = 0.1`). -/
structure MostFrequentImputer where
  cat_vars : List String
  threshold : ℚ

/-- The fill-value loop of `MostFrequentImputer.fit`:
`self.fill_vals[col] = X[col].value_counts().index[0]` over the fitted
variables, in order. -/
def fillValsGo (df : DataFrame) : List String → Except String (List (String × Value))
  | [] => .ok []
  | c :: rest =>
    match mostFrequent ((dfGet df c).getD []) with
    | none => .error ("IndexError: " ++ c)
    | some fv =>
      match fillValsGo df rest with
      | .ok tail => .ok ((c, fv) :: tail)
      | .error e => .error e

/-- `MostFrequentImputer.fit`: learns a fill value exactly for the
categorical variables that are present and whose null fraction is strictly
below the threshold. -/
def MostFrequentImputer.fit (m : MostFrequentImputer) (df : DataFrame) :
    Except String (List (String × Value)) :=
  fillValsGo df (m.cat_vars.filter (fittedCatVar df m.threshold))

/-- `np.round` to an integer: round half to even (banker's rounding), on an
exact rational input. -/
def roundHalfEven (q : ℚ) : ℤ :=
  let f := ⌊q⌋
  let r := q - (f : ℚ)
  if r < 1 / 2 then f
  else if 1 / 2 < r then f + 1
  else if f % 2 = 0 then f else f + 1

/-- `np.round(x, 5)`: round to 5 decimal places, half to even. -/
def npRound5 (q : ℚ) : ℚ := (roundHalfEven (q * 100000) : ℚ) / 100000

/-- The scan of pandas `DataFrame.idxmax(axis=1)` over one row: keeps the
first column label, replacing it only on a strictly greater value, so the
first occurrence of the maximum wins. -/
def idxmaxGo (c : String) (p : ℚ) : List (String × ℚ) → String
  | [] => c
  | (c2, p2) :: rest => if p < p2 then idxmaxGo c2 p2 rest else idxmaxGo c p rest

/-- pandas `idxmax(axis=1)` on one row of labelled values. -/
def idxmaxPairs : List (String × ℚ) → Option String
  | [] => none
  | (c, p) :: rest => some (idxmaxGo c p rest)

/-- One element of the response list built by
`ModelServer.predict_for_online_inferences`: the dict
`{id_field: ..., "label": ..., "probabilities": {...}}`. -/
structure PredictionRecord where
  idVal : Value
  label : String
  probabilities : List (String × ℚ)
deriving DecidableEq

/-- The per-row record assembly of `ModelServer.predict_for_online_inferences`
(model_server.py lines 106-135), given the classifier's probability vector
for the row. `predict_proba` first rounds the probabilities
(`np.round(preds, 5)`); `idxmax` over the class columns yields `__label`;
the record carries `rec[self.data_schema.id_field]` unmodified,
`str(rec["__label"])`, and `{str(k): np.round(v, 5)}` over the non-id,
non-label columns. -/
def predRecord (idField : String) (classNames : List String) (idv : Value)
    (probs : List ℚ) : PredictionRecord :=
  let rounded := probs.map npRound5
  let pairs := classNames.zip rounded
  let label := (idxmaxPairs pairs).getD ""
  { idVal := idv
    label := label
    probabilities :=
      (pairs.filter (fun kv => decide (kv.1 ≠ idField) && decide (kv.1 ≠ "__label"))).map
        (fun kv => (kv.1, npRound5 kv.2)) }

/-- `ModelServer.predict_for_online_inferences`: one record per input row.
Each row is given as its id cell paired with the classifier's probability
vector for the row (the preprocessing pipeline and the classifier itself are
external collaborators). -/
def predictForOnlineInferences (idField : String) (classNames : List String)
    (rows : List (Value × List ℚ)) : List PredictionRecord :=
  rows.map (fun r => predRecord idField classNames r.1 r.2)

/-! ## Helper lemmas about the DataFrame primitives -/

theorem dfGet_dfSet_self {df : DataFrame} {f : String} {vs : List Value}
    (vals : List Value) (h : dfGet df f = some vs) :
    dfGet (dfSet df f vals) f = some vals := by
  induction df with
  | nil => simp [dfGet] at h
  | cons p t ih =>
    by_cases hp : p.1 = f
    · simp [dfGet, dfSet, List.find?, hp]
    · have hb : (p.1 == f) = false := by simp [hp]
      simp only [dfGet, dfSet, List.map_cons, List.find?] at h ⊢
      rw [if_neg hp]
      simp only [hb] at h ⊢
      exact ih h

theorem dfGet_dfSet_ne {df : DataFrame} {f c : String} (vals : List Value)
    (h : c ≠ f) : dfGet (dfSet df f vals) c = dfGet df c := by
  induction df with
  | nil => rfl
  | cons p t ih =>
    by_cases hp : p.1 = f
    · have hb : (f == c) = false := by simp [Ne.symm h]
      have hb2 : (p.1 == c) = false := by rw [hp]; exact hb
      simp only [dfGet, dfSet, List.map_cons, List.find?, if_pos hp]
      simp only [hb, hb2]
      exact ih
    · simp only [dfGet, dfSet, List.map_cons, List.find?, if_neg hp]
      cases hb : (p.1 == c) with
      | true => rfl
      | false => exact ih

/-! ## Helper lemmas about the clipping stage -/

theorem clipFieldsGo_not_mem {minv maxv : Option ℚ} {f : String} :
    ∀ (fields : List String) (df out : DataFrame),
      clipFieldsGo minv maxv fields df = .ok out → f ∉ fields →
      dfGet out f = dfGet df f := by
  intro fields
  induction fields with
  | nil =>
    intro df out h _
    simp only [clipFieldsGo] at h
    cases h
    rfl
  | cons g rest ih =>
    intro df out h hf
    simp only [clipFieldsGo] at h
    cases hg : dfGet df g with
    | none => rw [hg] at h; cases h
    | some vals =>
      rw [hg] at h
      have hfg : f ≠ g := fun e => hf (e ▸ List.mem_cons_self g rest)
      have hfr : f ∉ rest := fun e => hf (List.mem_cons_of_mem g e)
      rw [ih _ _ h hfr, dfGet_dfSet_ne _ hfg]

theorem clipFieldsGo_mem {minv maxv : Option ℚ} {f : String} :
    ∀ (fields : List String) (df out : DataFrame),
      clipFieldsGo minv maxv fields df = .ok out → f ∈ fields →
      ∃ vs : List Value, dfGet out f = some (vs.map (clipValue minv maxv)) := by
  intro fields
  induction fields with
  | nil => intro df out _ hf; cases hf
  | cons g rest ih =>
    intro df out h hf
    simp only [clipFieldsGo] at h
    cases hg : dfGet df g with
    | none => rw [hg] at h; cases h
    | some vals =>
      rw [hg] at h
      by_cases hfr : f ∈ rest
      · exact ih _ _ h hfr
      · have hfg : f = g := by
          rcases List.mem_cons.mp hf with e | e
          · exact e
          · exact absurd e hfr
        subst hfg
        refine ⟨vals, ?_⟩
        rw [clipFieldsGo_not_mem rest _ _ h hfr]
        exact dfGet_dfSet_self _ hg

theorem clipQ_mem_Icc (q : ℚ) :
    -4 ≤ clipQ (some (-4)) (some 4) q ∧ clipQ (some (-4)) (some 4) q ≤ 4 := by
  constructor
  · exact le_min (le_max_right _ _) (by norm_num)
  · exact min_le_right _ _

theorem clipQ_of_ge (s : ℚ) (h : 4 ≤ s) : clipQ (some (-4)) (some 4) s = 4 := by
  have e : clipQ (some (-4)) (some 4) s = min (max s (-4)) 4 := rfl
  rw [e, max_eq_left (le_trans (by norm_num) h), min_eq_right h]

/-! ## Helper lemmas about duplicate dropping and the class sort -/

theorem mem_dropDuplicatesAux (w : Value) :
    ∀ (l seen : List Value), w ∈ dropDuplicatesAux l seen ↔ w ∈ l ∧ w ∉ seen := by
  intro l
  induction l with
  | nil => intro seen; simp [dropDuplicatesAux]
  | cons v vs ih =>
    intro seen
    by_cases hv : v ∈ seen
    · rw [dropDuplicatesAux, if_pos hv, ih]
      constructor
      · rintro ⟨h1, h2⟩
        exact ⟨List.mem_cons_of_mem v h1, h2⟩
      · rintro ⟨h1, h2⟩
        rcases List.mem_cons.mp h1 with e | e
        · exact absurd (e ▸ hv) h2
        · exact ⟨e, h2⟩
    · rw [dropDuplicatesAux, if_neg hv]
      simp only [List.mem_cons, ih]
      constructor
      · rintro (rfl | ⟨h1, h2⟩)
        · exact ⟨Or.inl rfl, hv⟩
        · exact ⟨Or.inr h1, fun c => h2 (Or.inr c)⟩
      · rintro ⟨rfl | h1, h2⟩
        · exact Or.inl rfl
        · by_cases hw : w = v
          · exact Or.inl hw
          · exact Or.inr ⟨h1, fun c => by
              rcases c with e | e
              · exact hw e
              · exact h2 e⟩

theorem nodup_dropDuplicatesAux :
    ∀ (l seen : List Value), (dropDuplicatesAux l seen).Nodup := by
  intro l
  induction l with
  | nil => intro seen; exact List.nodup_nil
  | cons v vs ih =>
    intro seen
    by_cases hv : v ∈ seen
    · rw [dropDuplicatesAux, if_pos hv]; exact ih seen
    · rw [dropDuplicatesAux, if_neg hv]
      refine List.Nodup.cons ?_ (ih (v :: seen))
      intro hmem
      exact ((mem_dropDuplicatesAux v vs (v :: seen)).mp hmem).2 (List.mem_cons_self v seen)

theorem mem_dropDuplicates (w : Value) (l : List Value) :
    w ∈ dropDuplicates l ↔ w ∈ l := by
  rw [dropDuplicates, mem_dropDuplicatesAux]
  simp

theorem nodup_dropDuplicates (l : List Value) : (dropDuplicates l).Nodup :=
  nodup_dropDuplicatesAux l []

theorem filter_eq_singleton_of_nodup {l : List Value} {a : Value}
    (hn : l.Nodup) (ha : a ∈ l) :
    l.filter (fun k => decide (k = a)) = [a] := by
  induction l with
  | nil => cases ha
  | cons h t ih =>
    have hht : h ∉ t := (List.nodup_cons.mp hn).1
    have hnt : t.Nodup := (List.nodup_cons.mp hn).2
    by_cases hh : h = a
    · subst hh
      rw [List.filter_cons_of_pos (by simp)]
      have : t.filter (fun k => decide (k = h)) = [] := by
        rw [List.filter_eq_nil_iff]
        intro x hx
        simp only [decide_eq_true_eq]
        exact fun e => hht (e ▸ hx)
      rw [this]
    · rw [List.filter_cons_of_neg (by simp [hh])]
      refine ih hnt ?_
      rcases List.mem_cons.mp ha with e | e
      · exact absurd e.symm hh
      · exact e

theorem filter_ne_eq_singleton {l : List Value} {neg pos : Value}
    (hn : l.Nodup) (hneg : neg ∈ l) (hne : neg ≠ pos)
    (hall : ∀ v ∈ l, v = neg ∨ v = pos) :
    l.filter (fun k => decide (k ≠ pos)) = [neg] := by
  induction l with
  | nil => cases hneg
  | cons h t ih =>
    have hht : h ∉ t := (List.nodup_cons.mp hn).1
    have hnt : t.Nodup := (List.nodup_cons.mp hn).2
    rcases hall h (List.mem_cons_self h t) with rfl | rfl
    · rw [List.filter_cons_of_pos (by simp [hne])]
      have : t.filter (fun k => decide (k ≠ pos)) = [] := by
        rw [List.filter_eq_nil_iff]
        intro x hx
        simp only [decide_eq_true_eq, not_not]
        rcases hall x (List.mem_cons_of_mem h hx) with rfl | rfl
        · exact absurd hx hht
        · rfl
      rw [this]
    · rw [List.filter_cons_of_neg (by simp)]
      have hnegt : neg ∈ t := by
        rcases List.mem_cons.mp hneg with e | e
        · exact absurd e hne
        · exact e
      exact ih hnt hnegt (fun v hv => hall v (List.mem_cons_of_mem h hv))

theorem mem_sortPosLast (pos v : Value) (l : List Value) :
    v ∈ sortPosLast pos l ↔ v ∈ l := by
  simp only [sortPosLast, List.mem_append, List.mem_filter, decide_eq_true_eq]
  by_cases hv : v = pos
  · subst hv; simp
  · simp [hv]

theorem nodup_sortPosLast (pos : Value) {l : List Value} (h : l.Nodup) :
    (sortPosLast pos l).Nodup := by
  refine List.Nodup.append (h.filter _) (h.filter _) ?_
  intro a ha hb
  have h1 := (List.mem_filter.mp ha).2
  have h2 := (List.mem_filter.mp hb).2
  simp only [decide_eq_true_eq] at h1 h2
  exact h1 h2

theorem dfGet_lbTransform (m : CustomLabelBinarizer) (df : DataFrame)
    (col : List Value) (h : dfGet df m.target_field = some col) :
    dfGet (m.transform df) m.target_field
      = some (col.map (lbTransformValue m.given_classes)) := by
  induction df with
  | nil => simp [dfGet] at h
  | cons p t ih =>
    by_cases hp : p.1 = m.target_field
    · have hb : (p.1 == m.target_field) = true := by simp [hp]
      simp only [dfGet, List.find?, hb, Option.map_some] at h
      injection h with h
      subst h
      simp only [CustomLabelBinarizer.transform, List.map_cons, if_pos hp]
      simp [dfGet, List.find?, hb]
    · have hb : (p.1 == m.target_field) = false := by simp [hp]
      simp only [dfGet, List.find?, hb] at h
      simp only [CustomLabelBinarizer.transform, List.map_cons, if_neg hp]
      simp only [dfGet, List.find?, hb]
      exact ih h

/-! ## Claim theorems -/

/-- C3: after the standardization and clipping stages, every rational value of
a clipped (numeric) feature column lies in the closed interval [-4, 4]; in
particular any standardized value at least 4 (arbitrarily many standard
deviations above the fit-time mean) clips to exactly 4. -/
theorem clipper_bounds_C3
    (clipper : ValueClipper) (df out : DataFrame) (f : String) (col : List Value)
    (hmin : clipper.min_val = some (-4)) (hmax : clipper.max_val = some 4)
    (hf : f ∈ clipper.fields_to_clip)
    (hok : clipper.transform df = .ok out)
    (hcol : dfGet out f = some col) :
    (∀ v ∈ col, ∀ q : ℚ, v = .rat q → -4 ≤ q ∧ q ≤ 4) ∧
    (∀ mean scale x : ℚ, 0 < scale → 4 ≤ scalerTransform mean scale x →
      clipQ (some (-4)) (some 4) (scalerTransform mean scale x) = 4) := by
  constructor
  · unfold ValueClipper.transform at hok
    rw [hmin, hmax] at hok
    obtain ⟨vs, hvs⟩ := clipFieldsGo_mem clipper.fields_to_clip df out hok hf
    rw [hcol] at hvs
    injection hvs with hvs
    subst hvs
    intro v hv q hq
    obtain ⟨w, _, hw⟩ := List.mem_map.mp hv
    cases w with
    | rat q0 =>
      simp only [clipValue] at hw
      rw [← hw] at hq
      injection hq with hq
      rw [← hq]
      exact clipQ_mem_Icc q0
    | str s => rw [← hw] at hq; simp [clipValue] at hq
    | int n => rw [← hw] at hq; simp [clipValue] at hq
    | null => rw [← hw] at hq; simp [clipValue] at hq
  · intro mean scale x _ hge
    exact clipQ_of_ge _ hge

/-- C3 witness: a raw column with an extreme outlier (10) and a low outlier
(-7) clips to 4 and -4; the non-numeric cell passes through. -/
theorem clipper_bounds_C3_witness :
    (∀ v ∈ [Value.rat 4, Value.str "x", Value.rat (-4)], ∀ q : ℚ,
      v = .rat q → -4 ≤ q ∧ q ≤ 4) ∧
    (∀ mean scale x : ℚ, 0 < scale → 4 ≤ scalerTransform mean scale x →
      clipQ (some (-4)) (some 4) (scalerTransform mean scale x) = 4) :=
  clipper_bounds_C3 ⟨["a"], some (-4), some 4⟩
    [("a", [.rat 10, .str "x", .rat (-7)])]
    [("a", [.rat 4, .str "x", .rat (-4)])] "a"
    [.rat 4, .str "x", .rat (-4)]
    rfl rfl (by decide) rfl rfl

/-- C4 counterexample: fitting the standard-scaler stage on a numeric column
with zero standard deviation does not fail: it completes, recording the mean
and (per scikit-learn's zero-variance handling) scale 1, and its transform
then divides by 1. No FitError is raised anywhere in the code. -/
theorem scaler_zero_std_C4_cex :
    scalerFit [5, 5, 5] = (5, 1) ∧ scalerTransform 5 1 7 = 2 := by
  constructor
  · norm_num [scalerFit, populationVar, listMean, handleZerosInVar]
  · norm_num [scalerTransform]

/-- C4 amended: for every training column with zero standard deviation,
fitting the scaler succeeds with scale 1 (scikit-learn substitutes 1 for a
zero scale), so transform subtracts the mean and divides by 1 — there is no
fit-time failure and no division by zero. -/
theorem scaler_zero_std_C4 (xs : List ℚ) (h : populationVar xs = 0) :
    scalerFit xs = (listMean xs, 1) ∧
    ∀ x, scalerTransform (listMean xs) 1 x = x - listMean xs := by
  constructor
  · simp [scalerFit, handleZerosInVar, h]
  · intro x
    simp [scalerTransform]

/-- C4 witness: the all-equal column [5, 5, 5] has zero variance; fitting
succeeds and the transform is pure mean-centering. -/
theorem scaler_zero_std_C4_witness :
    scalerFit [5, 5, 5] = (listMean [5, 5, 5], 1) ∧
    ∀ x, scalerTransform (listMean [5, 5, 5]) 1 x = x - listMean [5, 5, 5] :=
  scaler_zero_std_C4 [5, 5, 5] (by norm_num [populationVar, listMean])

/-- C7 counterexample: keep-mode selection preserves the input table's column
order, not the schema's declared order: with declared features
["num1", "catA"] and input columns [catA, num1, other], the selected columns
come out as [catA, num1]. -/
theorem column_selector_order_C7_cex :
    columnsOf (ColumnSelector.transform ⟨["num1", "catA"], .keep⟩
      [("catA", [Value.str "u"]), ("num1", [Value.int 1]), ("other", [Value.int 9])])
      = ["catA", "num1"] ∧ (["catA", "num1"] ≠ (["num1", "catA"] : List String)) := by
  constructor
  · rfl
  · decide

/-- C7 amended: keep-mode returns exactly those input columns whose names are
among the configured columns, in the input table's original column order
(a sublist of the input); drop-mode returns all columns except the named
ones, also in input order. -/
theorem column_selector_C7 (cols : List String) (df : DataFrame) :
    (∀ c, c ∈ columnsOf (ColumnSelector.transform ⟨cols, .keep⟩ df) ↔
      c ∈ columnsOf df ∧ c ∈ cols) ∧
    (ColumnSelector.transform ⟨cols, .keep⟩ df).Sublist df ∧
    (∀ c, c ∈ columnsOf (ColumnSelector.transform ⟨cols, .drop⟩ df) ↔
      c ∈ columnsOf df ∧ c ∉ cols) ∧
    (ColumnSelector.transform ⟨cols, .drop⟩ df).Sublist df := by
  refine ⟨?_, List.filter_sublist df, ?_, List.filter_sublist df⟩
  · intro c
    simp only [ColumnSelector.transform, columnsOf, List.mem_map]
    constructor
    · rintro ⟨p, hp, rfl⟩
      have := List.mem_filter.mp hp
      exact ⟨⟨p, this.1, rfl⟩, of_decide_eq_true this.2⟩
    · rintro ⟨⟨p, hp, rfl⟩, hc⟩
      exact ⟨p, List.mem_filter.mpr ⟨hp, decide_eq_true hc⟩, rfl⟩
  · intro c
    simp only [ColumnSelector.transform, columnsOf, List.mem_map]
    constructor
    · rintro ⟨p, hp, rfl⟩
      have := List.mem_filter.mp hp
      exact ⟨⟨p, this.1, rfl⟩, of_decide_eq_true this.2⟩
    · rintro ⟨⟨p, hp, rfl⟩, hc⟩
      exact ⟨p, List.mem_filter.mpr ⟨hp, decide_eq_true hc⟩, rfl⟩

/-- C1: when the target column's observed values are exactly two classes, one
of which is the configured positive class, fitting stores the classes with
the positive class last (index 1), and the resulting transform maps the
negative class to 0 and the positive class to 1 on the label column —
regardless of which class appears first in the data. -/
theorem label_binarizer_order_C1
    (m : CustomLabelBinarizer) (df : DataFrame) (col : List Value) (neg : Value)
    (hcol : dfGet df m.target_field = some col)
    (hne : neg ≠ m.target_class)
    (hpos : m.target_class ∈ col) (hneg : neg ∈ col)
    (hall : ∀ v ∈ col, v = neg ∨ v = m.target_class) :
    ∃ m' : CustomLabelBinarizer, m.fit df = .ok m' ∧
      m'.given_classes = [neg, m.target_class] ∧
      lbTransformValue m'.given_classes neg = .int 0 ∧
      lbTransformValue m'.given_classes m.target_class = .int 1 ∧
      ∀ (df2 : DataFrame) (col2 : List Value),
        dfGet df2 m.target_field = some col2 →
        dfGet (m'.transform df2) m.target_field
          = some (col2.map (lbTransformValue m'.given_classes)) := by
  have hfit : m.fit df
      = .ok { m with given_classes := sortPosLast m.target_class (dropDuplicates col) } := by
    unfold CustomLabelBinarizer.fit
    rw [hcol]
  refine ⟨_, hfit, ?_⟩
  have hdd : dropDuplicates col |>.Nodup := nodup_dropDuplicates col
  have hposd : m.target_class ∈ dropDuplicates col :=
    (mem_dropDuplicates _ _).mpr hpos
  have hnegd : neg ∈ dropDuplicates col := (mem_dropDuplicates _ _).mpr hneg
  have halld : ∀ v ∈ dropDuplicates col, v = neg ∨ v = m.target_class :=
    fun v hv => hall v ((mem_dropDuplicates _ _).mp hv)
  have hclasses : sortPosLast m.target_class (dropDuplicates col)
      = [neg, m.target_class] := by
    unfold sortPosLast
    rw [filter_ne_eq_singleton hdd hnegd hne halld,
      filter_eq_singleton_of_nodup hdd hposd]
    rfl
  refine ⟨hclasses, ?_, ?_, ?_⟩
  · simp only [hclasses, lbTransformValue, List.getLast?]
    rw [if_neg]
    intro h
    injection h with h
    exact hne h.symm
  · simp [hclasses, lbTransformValue, List.getLast?]
  · intro df2 col2 h2
    exact dfGet_lbTransform _ df2 col2 h2

/-- C1 witness: classes {A, B} with positive class B, where B appears first
in the training data; the encoder still stores [A, B] and maps A to 0, B
to 1. -/
theorem label_binarizer_order_C1_witness :
    ∃ m' : CustomLabelBinarizer,
      CustomLabelBinarizer.fit ⟨"t", .str "B", []⟩
        [("t", [.str "B", .str "A", .str "B"])] = .ok m' ∧
      m'.given_classes = [.str "A", .str "B"] ∧
      lbTransformValue m'.given_classes (.str "A") = .int 0 ∧
      lbTransformValue m'.given_classes (.str "B") = .int 1 ∧
      ∀ (df2 : DataFrame) (col2 : List Value),
        dfGet df2 "t" = some col2 →
        dfGet (m'.transform df2) "t"
          = some (col2.map (lbTransformValue m'.given_classes)) :=
  label_binarizer_order_C1 ⟨"t", .str "B", []⟩
    [("t", [.str "B", .str "A", .str "B"])]
    [.str "B", .str "A", .str "B"] (.str "A")
    rfl (by decide) (by decide) (by decide) (by decide)

/-- C5 counterexample: fitting the label encoder on a target column with
three distinct observed values does not fail — it returns normally, storing
all three classes; no InvalidTargetError (or any class-count check) exists
in the code. -/
theorem label_binarizer_two_class_C5_cex :
    CustomLabelBinarizer.fit ⟨"t", .str "x", []⟩
      [("t", [.str "a", .str "b", .str "c"])]
      = .ok ⟨"t", .str "x", [.str "a", .str "b", .str "c"]⟩ := rfl

theorem getLast?_append_singleton (l : List Value) (a : Value) :
    (l ++ [a]).getLast? = some a := by
  rw [List.getLast?_append_cons l a []]
  rfl

/-- C5 amended: fitting the label encoder never validates the number of
distinct observed classes: for every target column (zero, one, two, or more
distinct values) it succeeds, storing exactly the distinct observed values,
each once, sorted so the configured positive class — when observed at all —
is last. -/
theorem label_binarizer_fit_total_C5
    (m : CustomLabelBinarizer) (df : DataFrame) (col : List Value)
    (hcol : dfGet df m.target_field = some col) :
    ∃ m' : CustomLabelBinarizer, m.fit df = .ok m' ∧
      m'.given_classes.Nodup ∧
      (∀ v, v ∈ m'.given_classes ↔ v ∈ col) ∧
      (m.target_class ∈ col →
        m'.given_classes.getLast? = some m.target_class) := by
  have hfit : m.fit df
      = .ok { m with given_classes := sortPosLast m.target_class (dropDuplicates col) } := by
    unfold CustomLabelBinarizer.fit
    rw [hcol]
  refine ⟨_, hfit, nodup_sortPosLast _ (nodup_dropDuplicates col), ?_, ?_⟩
  · intro v
    rw [mem_sortPosLast, mem_dropDuplicates]
  · intro hpos
    have hposd : m.target_class ∈ dropDuplicates col :=
      (mem_dropDuplicates _ _).mpr hpos
    show (sortPosLast m.target_class (dropDuplicates col)).getLast? = some m.target_class
    unfold sortPosLast
    rw [filter_eq_singleton_of_nodup (nodup_dropDuplicates col) hposd]
    exact getLast?_append_singleton _ _

theorem oheExtra_error {s : OneHotEncoderMultipleCols} {df : DataFrame}
    {f : String} {tops : List String}
    (htop : lookupTop s f = some tops) (hne : tops ≠ [])
    (habs : dfGet df f = none) :
    ∀ l : List String, f ∈ l → ∃ e, oheExtra s df l = .error e := by
  intro l
  induction l with
  | nil => intro h; cases h
  | cons c rest ih =>
    intro hf
    by_cases hc : c = f
    · subst hc
      simp only [oheExtra, htop]
      rw [if_pos (List.length_pos_of_ne_nil hne)]
      simp only [habs]
      exact ⟨_, rfl⟩
    · have hfr : f ∈ rest := by
        rcases List.mem_cons.mp hf with e | e
        · exact absurd e.symm hc
        · exact e
      cases hl : lookupTop s c with
      | none => simp only [oheExtra, hl]; exact ⟨_, rfl⟩
      | some t =>
        simp only [oheExtra, hl]
        by_cases hlen : 0 < t.length
        · rw [if_pos hlen]
          cases hg : dfGet df c with
          | none => exact ⟨_, rfl⟩
          | some vals =>
            obtain ⟨e, he⟩ := ih hfr
            rw [he]
            exact ⟨e, rfl⟩
        · rw [if_neg hlen]
          exact ih hfr

theorem oheExtra_block {s : OneHotEncoderMultipleCols} {df : DataFrame}
    {f : String} {tops : List String} {vals : List Value}
    (htop : lookupTop s f = some tops) (hlen : 0 < tops.length)
    (hvals : dfGet df f = some vals) :
    ∀ (l : List String) (extra : List (String × List Value)),
      oheExtra s df l = .ok extra → f ∈ l →
      ∃ pre post : List (String × List Value),
        extra = pre ++ oheColsFor f tops vals ++ post := by
  intro l
  induction l with
  | nil => intro extra _ h; cases h
  | cons c rest ih =>
    intro extra hok hf
    by_cases hc : c = f
    · subst hc
      simp only [oheExtra, htop] at hok
      rw [if_pos hlen] at hok
      simp only [hvals] at hok
      cases ht : oheExtra s df rest with
      | error e => rw [ht] at hok; cases hok
      | ok tail =>
        rw [ht] at hok
        injection hok with hok
        exact ⟨[], tail, hok.symm⟩
    · have hfr : f ∈ rest := by
        rcases List.mem_cons.mp hf with e | e
        · exact absurd e.symm hc
        · exact e
      cases hl : lookupTop s c with
      | none => simp only [oheExtra, hl] at hok; cases hok
      | some t =>
        simp only [oheExtra, hl] at hok
        by_cases hlt : 0 < t.length
        · rw [if_pos hlt] at hok
          cases hg : dfGet df c with
          | none => rw [hg] at hok; cases hok
          | some cvals =>
            rw [hg] at hok
            cases ht : oheExtra s df rest with
            | error e => rw [ht] at hok; cases hok
            | ok tail =>
              rw [ht] at hok
              injection hok with hok
              obtain ⟨pre, post, hp⟩ := ih tail ht hfr
              refine ⟨oheColsFor c t cvals ++ pre, post, ?_⟩
              rw [← hok, hp]
              simp [List.append_assoc]
        · rw [if_neg hlt] at hok
          exact ih extra hok hfr

theorem indicator_sum_le_one {tops : List String} (v : Value) (hnodup : tops.Nodup) :
    (tops.map (fun cat => if v = .str cat then (1 : ℤ) else 0)).sum ≤ 1 := by
  induction tops with
  | nil => simp
  | cons c rest ih =>
    have hcr : c ∉ rest := (List.nodup_cons.mp hnodup).1
    have hrn : rest.Nodup := (List.nodup_cons.mp hnodup).2
    by_cases hv : v = .str c
    · rw [List.map_cons, List.sum_cons, if_pos hv]
      have hz : (rest.map (fun cat => if v = .str cat then (1 : ℤ) else 0)).sum = 0 := by
        apply List.sum_eq_zero
        intro x hx
        obtain ⟨cat, hcat, hc⟩ := List.mem_map.mp hx
        rw [← hc, if_neg]
        intro e
        rw [hv] at e
        injection e with e
        exact hcr (e ▸ hcat)
      rw [hz]
      omega
    · rw [List.map_cons, List.sum_cons, if_neg hv]
      simpa using ih hrn

/-- C2: for a fitted categorical feature with a non-empty learned top-K
category list that is present in the transform input, the transform succeeds
and its output contains, contiguously, exactly K indicator columns for that
feature (named `<feature>_<category>`, one per learned category, in learned
order); every indicator cell is 0 or 1; each row's indicators for the
feature sum to at most 1; and a row whose value is outside the learned list
gets all K indicators equal to 0 rather than an error. -/
theorem ohe_shape_invariant_C2
    (s : OneHotEncoderMultipleCols) (df out : DataFrame) (f : String)
    (tops : List String) (vals : List Value)
    (htop : lookupTop s f = some tops) (hne : tops ≠ []) (hnodup : tops.Nodup)
    (hf : f ∈ s.ohe_columns) (hvals : dfGet df f = some vals)
    (hok : s.transform df = .ok out) :
    (∃ pre post : List (String × List Value),
      out = pre ++ oheColsFor f tops vals ++ post) ∧
    (oheColsFor f tops vals).length = tops.length ∧
    (oheColsFor f tops vals).map Prod.fst = tops.map (fun cat => f ++ "_" ++ cat) ∧
    (∀ cat ∈ tops, (f ++ "_" ++ cat, vals.map (oheIndicator cat)) ∈ oheColsFor f tops vals) ∧
    (∀ p ∈ oheColsFor f tops vals, ∀ v ∈ p.2, v = .int 0 ∨ v = .int 1) ∧
    (∀ v ∈ vals, (tops.map (fun cat => if v = .str cat then (1 : ℤ) else 0)).sum ≤ 1) ∧
    (∀ v ∈ vals, (∀ cat ∈ tops, v ≠ .str cat) →
      ∀ cat ∈ tops, oheIndicator cat v = .int 0) := by
  refine ⟨?_, ?_, ?_, ?_, ?_, ?_, ?_⟩
  · unfold OneHotEncoderMultipleCols.transform at hok
    have hemp : s.ohe_columns.isEmpty = false := by
      cases hcols : s.ohe_columns with
      | nil => rw [hcols] at hf; cases hf
      | cons a l => rfl
    rw [hemp] at hok
    simp only [Bool.false_eq_true, if_false] at hok
    cases hext : oheExtra s df s.ohe_columns with
    | error e => rw [hext] at hok; cases hok
    | ok extra =>
      rw [hext] at hok
      injection hok with hok
      obtain ⟨pre, post, hp⟩ :=
        oheExtra_block htop (List.length_pos_of_ne_nil hne) hvals
          s.ohe_columns extra hext hf
      refine ⟨df ++ pre, post, ?_⟩
      rw [← hok, hp]
      simp [List.append_assoc]
  · simp [oheColsFor]
  · simp [oheColsFor]
  · intro cat hcat
    exact List.mem_map.mpr ⟨cat, hcat, rfl⟩
  · intro p hp v hv
    obtain ⟨cat, _, hc⟩ := List.mem_map.mp hp
    rw [← hc] at hv
    obtain ⟨w, _, hw⟩ := List.mem_map.mp hv
    rw [← hw]
    unfold oheIndicator
    by_cases h : w = .str cat
    · rw [if_pos h]; exact Or.inr rfl
    · rw [if_neg h]; exact Or.inl rfl
  · intro v _
    exact indicator_sum_le_one v hnodup
  · intro v _ hout cat hcat
    unfold oheIndicator
    rw [if_neg (hout cat hcat)]

/-- C2 witness: feature "color" with learned categories [red, blue]; the
first row's value red lights exactly the red indicator, the second row's
value purple (unseen at fit time) produces all-zero indicators without an
error. -/
theorem ohe_shape_invariant_C2_witness :
    (∃ pre post : List (String × List Value),
      [("id", [Value.int 1, Value.int 2]), ("color", [Value.str "red", Value.str "purple"]),
       ("color_red", [Value.int 1, Value.int 0]), ("color_blue", [Value.int 0, Value.int 0])]
        = pre ++ oheColsFor "color" ["red", "blue"]
            [Value.str "red", Value.str "purple"] ++ post) ∧
    (oheColsFor "color" ["red", "blue"] [Value.str "red", Value.str "purple"]).length
      = (["red", "blue"] : List String).length ∧
    (oheColsFor "color" ["red", "blue"] [Value.str "red", Value.str "purple"]).map Prod.fst
      = (["red", "blue"] : List String).map (fun cat => "color" ++ "_" ++ cat) ∧
    (∀ cat ∈ (["red", "blue"] : List String),
      ("color" ++ "_" ++ cat,
        [Value.str "red", Value.str "purple"].map (oheIndicator cat))
        ∈ oheColsFor "color" ["red", "blue"] [Value.str "red", Value.str "purple"]) ∧
    (∀ p ∈ oheColsFor "color" ["red", "blue"] [Value.str "red", Value.str "purple"],
      ∀ v ∈ p.2, v = .int 0 ∨ v = .int 1) ∧
    (∀ v ∈ [Value.str "red", Value.str "purple"],
      ((["red", "blue"] : List String).map
        (fun cat => if v = .str cat then (1 : ℤ) else 0)).sum ≤ 1) ∧
    (∀ v ∈ [Value.str "red", Value.str "purple"],
      (∀ cat ∈ (["red", "blue"] : List String), v ≠ .str cat) →
      ∀ cat ∈ (["red", "blue"] : List String), oheIndicator cat v = .int 0) :=
  ohe_shape_invariant_C2 ⟨["color"], [("color", ["red", "blue"])]⟩
    [("id", [.int 1, .int 2]), ("color", [.str "red", .str "purple"])]
    [("id", [.int 1, .int 2]), ("color", [.str "red", .str "purple"]),
     ("color_red", [.int 1, .int 0]), ("color_blue", [.int 0, .int 0])]
    "color" ["red", "blue"] [.str "red", .str "purple"]
    rfl (by decide) (by decide) (by decide) rfl rfl

/-- C6: if a categorical column that was one-hot encoded at fit time (with a
non-empty learned category list) is entirely absent from the transform
input's columns, the transform fails with an error instead of returning a
frame of the wrong width. -/
theorem ohe_missing_column_C6
    (s : OneHotEncoderMultipleCols) (df : DataFrame) (f : String)
    (tops : List String)
    (hf : f ∈ s.ohe_columns)
    (htop : lookupTop s f = some tops) (hne : tops ≠ [])
    (habs : dfGet df f = none) :
    ∃ e, s.transform df = .error e := by
  unfold OneHotEncoderMultipleCols.transform
  have hemp : s.ohe_columns.isEmpty = false := by
    cases hcols : s.ohe_columns with
    | nil => rw [hcols] at hf; cases hf
    | cons a l => rfl
  rw [hemp]
  simp only [Bool.false_eq_true, if_false]
  obtain ⟨e, he⟩ := oheExtra_error htop hne habs s.ohe_columns hf
  rw [he]
  exact ⟨e, rfl⟩

/-- C6 witness: the encoder fitted on "color" with learned category [red]
fails on an input that has no "color" column at all. -/
theorem ohe_missing_column_C6_witness :
    ∃ e, OneHotEncoderMultipleCols.transform ⟨["color"], [("color", ["red"])]⟩
      [("id", [Value.int 1])] = .error e :=
  ohe_missing_column_C6 ⟨["color"], [("color", ["red"])]⟩ [("id", [.int 1])]
    "color" ["red"] (by decide) rfl (by decide) rfl

theorem foldl_best_isSome (vals : List Value) :
    ∀ (l : List Value) (b : Option Value), (b.isSome ∨ l ≠ []) →
      (l.foldl (fun best c =>
        match best with
        | none => some c
        | some b0 => if vals.count b0 < vals.count c then some c else best) b).isSome := by
  intro l
  induction l with
  | nil =>
    intro b hb
    rcases hb with h | h
    · exact h
    · exact absurd rfl h
  | cons c rest ih =>
    intro b _
    rw [List.foldl_cons]
    refine ih _ (Or.inl ?_)
    cases b with
    | none => rfl
    | some b0 =>
      by_cases h : vals.count b0 < vals.count c
      · simp [h]
      · simp [h]

theorem foldl_best_spec (vals : List Value) :
    ∀ (l : List Value) (b : Option Value) (r : Value),
      l.foldl (fun best c =>
        match best with
        | none => some c
        | some b0 => if vals.count b0 < vals.count c then some c else best) b = some r →
      (b = some r ∨ r ∈ l) ∧ (∀ c ∈ l, vals.count c ≤ vals.count r) ∧
      (∀ x, b = some x → vals.count x ≤ vals.count r) := by
  intro l
  induction l with
  | nil =>
    intro b r h
    rw [List.foldl_nil] at h
    refine ⟨Or.inl h, fun c hc => absurd hc (List.not_mem_nil c), ?_⟩
    intro x hx
    rw [h] at hx
    injection hx with hx
    rw [hx]
  | cons c rest ih =>
    intro b r h
    rw [List.foldl_cons] at h
    obtain ⟨h1, h2, h3⟩ := ih _ r h
    cases b with
    | none =>
      have hc : vals.count c ≤ vals.count r := h3 c rfl
      refine ⟨?_, ?_, ?_⟩
      · rcases h1 with e | e
        · injection e with e
          exact Or.inr (e ▸ List.mem_cons_self c rest)
        · exact Or.inr (List.mem_cons_of_mem c e)
      · intro x hx
        rcases List.mem_cons.mp hx with e | e
        · exact e ▸ hc
        · exact h2 x e
      · intro x hx
        cases hx
    | some b0 =>
      dsimp only at h1 h3
      by_cases hlt : vals.count b0 < vals.count c
      · rw [if_pos hlt] at h1 h3
        have hc : vals.count c ≤ vals.count r := h3 c rfl
        refine ⟨?_, ?_, ?_⟩
        · rcases h1 with e | e
          · injection e with e
            exact Or.inr (e ▸ List.mem_cons_self c rest)
          · exact Or.inr (List.mem_cons_of_mem c e)
        · intro x hx
          rcases List.mem_cons.mp hx with e | e
          · exact e ▸ hc
          · exact h2 x e
        · intro x hx
          injection hx with hx
          exact le_trans (le_of_lt (hx ▸ hlt)) hc
      · rw [if_neg hlt] at h1 h3
        have hb : vals.count b0 ≤ vals.count r := h3 b0 rfl
        refine ⟨?_, ?_, ?_⟩
        · rcases h1 with e | e
          · exact Or.inl e
          · exact Or.inr (List.mem_cons_of_mem c e)
        · intro x hx
          rcases List.mem_cons.mp hx with e | e
          · exact e ▸ le_trans (le_of_not_lt hlt) hb
          · exact h2 x e
        · intro x hx
          injection hx with hx
          exact hx ▸ hb

theorem isNull_eq_false_iff (v : Value) : isNull v = false ↔ v ≠ .null := by
  cases v <;> simp [isNull]

theorem mostFrequent_spec {vals : List Value} {fv : Value}
    (h : mostFrequent vals = some fv) :
    fv ∈ vals ∧ fv ≠ .null ∧
      ∀ w ∈ vals, w ≠ .null → vals.count w ≤ vals.count fv := by
  unfold mostFrequent at h
  obtain ⟨h1, h2, _⟩ := foldl_best_spec vals _ none fv h
  have hfv : fv ∈ dropDuplicates (vals.filter (fun v => !(isNull v))) := by
    rcases h1 with e | e
    · cases e
    · exact e
  have hfv2 : fv ∈ vals.filter (fun v => !(isNull v)) :=
    (mem_dropDuplicates _ _).mp hfv
  have hmem := List.mem_filter.mp hfv2
  refine ⟨hmem.1, ?_, ?_⟩
  · rw [← isNull_eq_false_iff]
    cases hn : isNull fv with
    | false => rfl
    | true => rw [hn] at hmem; cases hmem.2
  · intro w hw hwn
    refine h2 w ?_
    rw [mem_dropDuplicates]
    refine List.mem_filter.mpr ⟨hw, ?_⟩
    rw [Bool.not_eq_true', isNull_eq_false_iff]
    exact hwn

theorem dropDuplicates_ne_nil {l : List Value} (h : l ≠ []) :
    dropDuplicates l ≠ [] := by
  cases l with
  | nil => exact absurd rfl h
  | cons v vs =>
    rw [dropDuplicates, dropDuplicatesAux, if_neg (List.not_mem_nil v)]
    exact List.cons_ne_nil _ _

theorem nullFracBelow_iff (vals : List Value) (t : ℚ) :
    nullFracBelow vals t = true ↔
      vals.length ≠ 0 ∧
        ((vals.filter isNull).length : ℚ) / (vals.length : ℚ) < t := by
  unfold nullFracBelow
  by_cases h : vals.length = 0
  · simp [h]
  · simp [h]

theorem mostFrequent_isSome_of_below {vals : List Value} {t : ℚ}
    (ht : t ≤ 1) (h : nullFracBelow vals t = true) :
    (mostFrequent vals).isSome := by
  obtain ⟨hlen, hfrac⟩ := (nullFracBelow_iff vals t).mp h
  unfold mostFrequent
  refine foldl_best_isSome vals _ none (Or.inr ?_)
  refine dropDuplicates_ne_nil ?_
  intro hnil
  have hall : ∀ v ∈ vals, isNull v = true := by
    intro v hv
    cases hn : isNull v with
    | true => rfl
    | false =>
      have : v ∈ vals.filter (fun v => !(isNull v)) :=
        List.mem_filter.mpr ⟨hv, by rw [hn]; rfl⟩
      rw [hnil] at this
      cases this
  have heq : vals.filter isNull = vals := List.filter_eq_self.mpr hall
  rw [heq] at hfrac
  rw [div_self (by exact_mod_cast hlen : ((vals.length : ℚ)) ≠ 0)] at hfrac
  exact absurd (lt_of_lt_of_le hfrac ht) (lt_irrefl 1)

theorem fillValsGo_ok (df : DataFrame) :
    ∀ l : List String,
      (∀ c ∈ l, (mostFrequent ((dfGet df c).getD [])).isSome) →
      ∃ fills : List (String × Value), fillValsGo df l = .ok fills ∧
        (∀ c, (∃ fv, (c, fv) ∈ fills) ↔ c ∈ l) ∧
        (∀ c fv, (c, fv) ∈ fills →
          mostFrequent ((dfGet df c).getD []) = some fv) := by
  intro l
  induction l with
  | nil =>
    intro _
    refine ⟨[], rfl, ?_, ?_⟩
    · intro c
      simp
    · intro c fv h
      cases h
  | cons c rest ih =>
    intro hall
    obtain ⟨fills, hok, hiff, hmf⟩ := ih (fun x hx => hall x (List.mem_cons_of_mem c hx))
    have hc := hall c (List.mem_cons_self c rest)
    cases hmc : mostFrequent ((dfGet df c).getD []) with
    | none => rw [hmc] at hc; cases hc
    | some fv =>
      refine ⟨(c, fv) :: fills, ?_, ?_, ?_⟩
      · rw [fillValsGo, hmc, hok]
      · intro c2
        constructor
        · rintro ⟨fv2, hmem⟩
          rcases List.mem_cons.mp hmem with e | e
          · injection e with e1 _
            exact e1 ▸ List.mem_cons_self c rest
          · exact List.mem_cons_of_mem c ((hiff c2).mp ⟨fv2, e⟩)
        · intro hmem
          rcases List.mem_cons.mp hmem with e | e
          · exact ⟨fv, e ▸ List.mem_cons_self _ _⟩
          · obtain ⟨fv2, h2⟩ := (hiff c2).mpr e
            exact ⟨fv2, List.mem_cons_of_mem _ h2⟩
      · intro c2 fv2 hmem
        rcases List.mem_cons.mp hmem with e | e
        · injection e with e1 e2
          rw [e1, e2]
          exact hmc
        · exact hmf c2 fv2 e

/-- C8: a fill value is learned for a present categorical feature if and only
if its null fraction is strictly below the threshold; the learned fill value
is an observed non-null category of maximal occurrence count (the most
frequent observed category). -/
theorem most_frequent_imputer_C8
    (m : MostFrequentImputer) (df : DataFrame) (f : String) (vals : List Value)
    (ht : m.threshold ≤ 1)
    (hf : f ∈ m.cat_vars) (hvals : dfGet df f = some vals) :
    ∃ fills : List (String × Value), m.fit df = .ok fills ∧
      ((∃ fv, (f, fv) ∈ fills) ↔
        (vals.length ≠ 0 ∧
          ((vals.filter isNull).length : ℚ) / (vals.length : ℚ) < m.threshold)) ∧
      (∀ c fv, (c, fv) ∈ fills →
        ∃ cvals : List Value, dfGet df c = some cvals ∧ fv ∈ cvals ∧ fv ≠ .null ∧
          ∀ w ∈ cvals, w ≠ .null → cvals.count w ≤ cvals.count fv) := by
  have hsome : ∀ c ∈ m.cat_vars.filter (fittedCatVar df m.threshold),
      (mostFrequent ((dfGet df c).getD [])).isSome := by
    intro c hc
    have hfit := (List.mem_filter.mp hc).2
    unfold fittedCatVar at hfit
    cases hg : dfGet df c with
    | none => rw [hg] at hfit; exact Bool.noConfusion hfit
    | some cvals => rw [hg] at hfit; exact mostFrequent_isSome_of_below ht hfit
  obtain ⟨fills, hok, hiff, hmf⟩ :=
    fillValsGo_ok df (m.cat_vars.filter (fittedCatVar df m.threshold)) hsome
  refine ⟨fills, hok, ?_, ?_⟩
  · rw [hiff f]
    constructor
    · intro hmem
      have hfit := (List.mem_filter.mp hmem).2
      unfold fittedCatVar at hfit
      rw [hvals] at hfit
      exact (nullFracBelow_iff vals m.threshold).mp hfit
    · intro hcond
      refine List.mem_filter.mpr ⟨hf, ?_⟩
      unfold fittedCatVar
      rw [hvals]
      exact (nullFracBelow_iff vals m.threshold).mpr hcond
  · intro c fv hmem
    have hm := hmf c fv hmem
    have hcl := (hiff c).mp ⟨fv, hmem⟩
    have hfit := (List.mem_filter.mp hcl).2
    unfold fittedCatVar at hfit
    cases hg : dfGet df c with
    | none => rw [hg] at hfit; exact Bool.noConfusion hfit
    | some cvals =>
      rw [hg] at hm
      obtain ⟨h1, h2, h3⟩ := @mostFrequent_spec cvals fv hm
      exact ⟨cvals, rfl, h1, h2, h3⟩

/-- C8 witness: feature "c" with no nulls (fraction 0 < 0.1) learns the most
frequent category "a"; the theorem's conclusions hold at this input. -/
theorem most_frequent_imputer_C8_witness :
    ∃ fills : List (String × Value),
      MostFrequentImputer.fit ⟨["c"], 1/10⟩
        [("c", [.str "a", .str "a", .str "b"])] = .ok fills ∧
      ((∃ fv, ("c", fv) ∈ fills) ↔
        ([Value.str "a", Value.str "a", Value.str "b"].length ≠ 0 ∧
          (([Value.str "a", Value.str "a", Value.str "b"].filter isNull).length : ℚ) /
            (([Value.str "a", Value.str "a", Value.str "b"].length : ℚ)) < 1/10)) ∧
      (∀ c fv, (c, fv) ∈ fills →
        ∃ cvals : List Value,
          dfGet [("c", [.str "a", .str "a", .str "b"])] c = some cvals ∧
          fv ∈ cvals ∧ fv ≠ .null ∧
          ∀ w ∈ cvals, w ≠ .null → cvals.count w ≤ cvals.count fv) :=
  most_frequent_imputer_C8 ⟨["c"], 1/10⟩ [("c", [.str "a", .str "a", .str "b"])]
    "c" [.str "a", .str "a", .str "b"] (by norm_num) (by decide) rfl

theorem roundHalfEven_intCast (n : ℤ) : roundHalfEven (n : ℚ) = n := by
  simp only [roundHalfEven, Int.floor_intCast, sub_self]
  norm_num

theorem npRound5_idem (q : ℚ) : npRound5 (npRound5 q) = npRound5 q := by
  unfold npRound5
  rw [div_mul_cancel₀ _ (by norm_num : (100000 : ℚ) ≠ 0), roundHalfEven_intCast]

theorem idxmaxPairs_two (c0 c1 : String) (p0 p1 : ℚ) :
    idxmaxPairs [(c0, p0), (c1, p1)] = some (if p0 < p1 then c1 else c0) := by
  by_cases h : p0 < p1
  · simp [idxmaxPairs, idxmaxGo, h]
  · simp [idxmaxPairs, idxmaxGo, h]

theorem mem_zip_left {α β : Type} {l1 : List α} {l2 : List β} {p : α × β} :
    p ∈ l1.zip l2 → p.1 ∈ l1 := by
  intro h
  exact (List.of_mem_zip h).1

/-- C9 counterexample: the online prediction record passes the row's id
through unmodified — an integer id 42 stays the integer 42, it is not cast
to the string "42". -/
theorem online_id_unmodified_C9_cex :
    (predictForOnlineInferences "id" ["a", "b"]
        [(.int 42, [3/10, 7/10])]).map PredictionRecord.idVal = [.int 42] ∧
      Value.int 42 ≠ Value.str "42" :=
  ⟨rfl, by decide⟩

/-- C9 amended: the single-request prediction operation returns one record
per input row; each record carries the row's id value unmodified (not cast
to a string), the predicted label as a string, and a probabilities mapping
whose keys are exactly the label encoder's class names in their fixed order
and whose values are the class probabilities rounded to 5 decimal places. -/
theorem online_records_shape_C9
    (idField : String) (classNames : List String) (rows : List (Value × List ℚ))
    (hlen : ∀ r ∈ rows, r.2.length = classNames.length)
    (hid : idField ∉ classNames) (hlbl : "__label" ∉ classNames) :
    (predictForOnlineInferences idField classNames rows).length = rows.length ∧
    (∀ rec ∈ predictForOnlineInferences idField classNames rows,
      ∃ r ∈ rows, rec = predRecord idField classNames r.1 r.2) ∧
    (∀ r ∈ rows,
      (predRecord idField classNames r.1 r.2).idVal = r.1 ∧
      (predRecord idField classNames r.1 r.2).probabilities.map Prod.fst = classNames ∧
      (predRecord idField classNames r.1 r.2).probabilities.map Prod.snd
        = r.2.map npRound5) := by
  refine ⟨List.length_map rows _, ?_, ?_⟩
  · intro rec hrec
    obtain ⟨r, hr, he⟩ := List.mem_map.mp hrec
    exact ⟨r, hr, he.symm⟩
  · intro r hr
    have hfilter :
        ((classNames.zip (r.2.map npRound5)).filter
          (fun kv => decide (kv.1 ≠ idField) && decide (kv.1 ≠ "__label")))
        = classNames.zip (r.2.map npRound5) := by
      apply List.filter_eq_self.mpr
      intro kv hkv
      have h1 : kv.1 ∈ classNames := mem_zip_left hkv
      rw [Bool.and_eq_true, decide_eq_true_iff, decide_eq_true_iff]
      exact ⟨fun e => hid (e ▸ h1), fun e => hlbl (e ▸ h1)⟩
    have hlr : (r.2.map npRound5).length = classNames.length := by
      rw [List.length_map]
      exact hlen r hr
    refine ⟨rfl, ?_, ?_⟩
    · show (((classNames.zip (r.2.map npRound5)).filter
          (fun kv => decide (kv.1 ≠ idField) && decide (kv.1 ≠ "__label"))).map
            (fun kv => (kv.1, npRound5 kv.2))).map Prod.fst = classNames
      rw [hfilter, List.map_map]
      have : (Prod.fst ∘ fun kv : String × ℚ => (kv.1, npRound5 kv.2)) = Prod.fst := by
        funext kv
        rfl
      rw [this]
      exact List.map_fst_zip _ _ (le_of_eq hlr.symm)
    · show (((classNames.zip (r.2.map npRound5)).filter
          (fun kv => decide (kv.1 ≠ idField) && decide (kv.1 ≠ "__label"))).map
            (fun kv => (kv.1, npRound5 kv.2))).map Prod.snd = r.2.map npRound5
      rw [hfilter, List.map_map]
      have hcomp : (Prod.snd ∘ fun kv : String × ℚ => (kv.1, npRound5 kv.2))
          = fun kv : String × ℚ => npRound5 kv.2 := by
        funext kv
        rfl
      rw [hcomp]
      have hsnd : (classNames.zip (r.2.map npRound5)).map
          (fun kv : String × ℚ => npRound5 kv.2)
          = ((classNames.zip (r.2.map npRound5)).map Prod.snd).map npRound5 := by
        rw [List.map_map]
        rfl
      rw [hsnd, List.map_snd_zip _ _ (le_of_eq hlr), List.map_map]
      apply List.map_congr_left
      intro q _
      exact npRound5_idem q

/-- C9 witness: one input row with an integer id and two class
probabilities; the record keeps the id, the keys are the two class names,
and the values are the rounded probabilities. -/
theorem online_records_shape_C9_witness :
    (predictForOnlineInferences "id" ["a", "b"]
      [(.int 42, [3/10, 7/10])]).length = ([(Value.int 42, [3/10, 7/10])] : List (Value × List ℚ)).length ∧
    (∀ rec ∈ predictForOnlineInferences "id" ["a", "b"] [(.int 42, [3/10, 7/10])],
      ∃ r ∈ ([(Value.int 42, [3/10, 7/10])] : List (Value × List ℚ)),
        rec = predRecord "id" ["a", "b"] r.1 r.2) ∧
    (∀ r ∈ ([(Value.int 42, [3/10, 7/10])] : List (Value × List ℚ)),
      (predRecord "id" ["a", "b"] r.1 r.2).idVal = r.1 ∧
      (predRecord "id" ["a", "b"] r.1 r.2).probabilities.map Prod.fst = ["a", "b"] ∧
      (predRecord "id" ["a", "b"] r.1 r.2).probabilities.map Prod.snd
        = r.2.map npRound5) :=
  online_records_shape_C9 "id" ["a", "b"] [(.int 42, [3/10, 7/10])]
    (by
      intro r hr
      cases hr with
      | head => rfl
      | tail _ h => cases h)
    (by decide) (by decide)

/-- C10: the predicted class of a prediction row is the class name with the
maximum (rounded) probability among the two classes, computed by idxmax over
the class columns in encoder order — and when the two probabilities are
exactly equal the first class (index 0, the negative class) wins. -/
theorem argmax_tie_break_C10
    (idField c0 c1 : String) (idv : Value) (p0 p1 : ℚ) :
    ((predRecord idField [c0, c1] idv [p0, p1]).label
      = if npRound5 p0 < npRound5 p1 then c1 else c0) ∧
    (npRound5 p0 = npRound5 p1 →
      (predRecord idField [c0, c1] idv [p0, p1]).label = c0) ∧
    (npRound5 p0 < npRound5 p1 →
      (predRecord idField [c0, c1] idv [p0, p1]).label = c1) ∧
    (npRound5 p1 < npRound5 p0 →
      (predRecord idField [c0, c1] idv [p0, p1]).label = c0) := by
  have hlabel : (predRecord idField [c0, c1] idv [p0, p1]).label
      = if npRound5 p0 < npRound5 p1 then c1 else c0 := by
    show (idxmaxPairs ([c0, c1].zip ([p0, p1].map npRound5))).getD ""
      = if npRound5 p0 < npRound5 p1 then c1 else c0
    rw [List.map_cons, List.map_cons, List.map_nil, List.zip_cons_cons,
      List.zip_cons_cons, List.zip_nil_left, idxmaxPairs_two]
    rfl
  refine ⟨hlabel, ?_, ?_, ?_⟩
  · intro he
    rw [hlabel, if_neg (by rw [he]; exact lt_irrefl _)]
  · intro hlt
    rw [hlabel, if_pos hlt]
  · intro hgt
    rw [hlabel, if_neg (not_lt_of_gt hgt)]

/-- C10 witness: with exactly equal probabilities the negative class (first
class name) is predicted. -/
theorem argmax_tie_break_C10_witness :
    (predRecord "id" ["neg", "pos"] (.int 1) [3/10, 3/10]).label = "neg" :=
  (argmax_tie_break_C10 "id" "neg" "pos" (.int 1) (3/10) (3/10)).2.1 rfl

/-- C5 witness: a three-class target column containing the configured
positive class x fits without error, storing the three distinct classes with
x last. -/
theorem label_binarizer_fit_total_C5_witness :
    ∃ m' : CustomLabelBinarizer,
      CustomLabelBinarizer.fit ⟨"t", .str "x", []⟩
        [("t", [.str "a", .str "x", .str "b"])] = .ok m' ∧
      m'.given_classes.Nodup ∧
      (∀ v, v ∈ m'.given_classes ↔ v ∈ [Value.str "a", Value.str "x", Value.str "b"]) ∧
      (Value.str "x" ∈ [Value.str "a", Value.str "x", Value.str "b"] →
        m'.given_classes.getLast? = some (.str "x")) :=
  label_binarizer_fit_total_C5 ⟨"t", .str "x", []⟩
    [("t", [.str "a", .str "x", .str "b"])] [.str "a", .str "x", .str "b"] rfl

end RTServe
